import Mathlib

/-!
Verification development for `onn_ota_captor.py` (OTACaptor).

The definitions below are a shallow embedding of the capture pipeline of
`src/onn_ota_captor.py`: the URL matcher (`URL_REGEX` and the
`/package/<hex>.zip` search used by `friendly_name_from_url`),
`sanitize_url`, `friendly_name_from_url`, the dedup/notify body of
`OtaCaptor._parser_thread`, the shared-queue fan-out between
`OtaCaptor._writer_thread` and `OtaCaptor._parser_thread`, the
`OneShotController` latch, and `OtaCaptor.stop`.

Strings are modelled as `List Char`. Python text semantics used by the
source on the relevant code paths (ASCII log lines and URLs) are embedded
directly; `\s` is embedded as the ASCII whitespace class, which agrees
with Python's class on every ASCII character.
-/

/-- Python regex class `\s` restricted to ASCII: space, TAB, LF, VT, FF, CR.
Agrees with Python's `\s` on all ASCII characters. -/
def isPySpace (c : Char) : Bool :=
  c = ' ' || c = '\t' || c = '\n' || c = '\r' || c = Char.ofNat 11 || c = Char.ofNat 12

/-- The character class `[^\s\]]` used throughout `URL_REGEX`. -/
def urlChar (c : Char) : Bool :=
  !(isPySpace c || c = ']')

/-- The character class `[A-Fa-f0-9]` of the hash segment. -/
def isHexChar (c : Char) : Bool :=
  ('0' ≤ c && c ≤ '9') || ('a' ≤ c && c ≤ 'f') || ('A' ≤ c && c ≤ 'F')

/-- Drop a literal character sequence `p` from the front of `l`; `none` when
`p` is not a prefix of `l`.  This is the embedding of matching a literal
piece of a regex at the current position. -/
def dropLit : List Char → List Char → Option (List Char)
  | [], l => some l
  | _ :: _, [] => none
  | p :: ps, c :: cs => if p = c then dropLit ps cs else none

/-- The first branch `packages/ota-api/package/[A-Fa-f0-9]+\.zip` of the
alternation inside `URL_REGEX`.  The greedy `[A-Fa-f0-9]+` is embedded as
the maximal hex run: since `.` is not a hex character, no shorter run can
be followed by `.zip`, so backtracking is never needed. -/
def matchPkgTail (l : List Char) : Option (List Char × List Char) :=
  match dropLit "packages/ota-api/package/".toList l with
  | none => none
  | some r1 =>
    let h := r1.takeWhile isHexChar
    let r2 := r1.dropWhile isHexChar
    if h = [] then none
    else
      match dropLit ".zip".toList r2 with
      | none => none
      | some r3 => some ("packages/ota-api/package/".toList ++ h ++ ".zip".toList, r3)

/-- The second branch `payload\.(?:bin|zip)` of the alternation inside
`URL_REGEX` (alternatives tried left to right, as Python does). -/
def matchPayload (l : List Char) : Option (List Char × List Char) :=
  match dropLit "payload.bin".toList l with
  | some r => some ("payload.bin".toList, r)
  | none =>
    match dropLit "payload.zip".toList l with
    | some r => some ("payload.zip".toList, r)
    | none => none

/-- The full alternation `(?:packages/ota-api/package/[A-Fa-f0-9]+\.zip|payload\.(?:bin|zip))`. -/
def matchAltCore (l : List Char) : Option (List Char × List Char) :=
  match matchPkgTail l with
  | some r => some r
  | none => matchPayload l

/-- The lazy star `[^\s\]]*?` followed by the alternation: try the
alternation after consuming 0 class characters, then after 1, and so on
(shortest first, exactly Python's lazy semantics; nothing after the
alternation can fail, so no further backtracking exists). -/
def lazyScan : List Char → Option (List Char × List Char)
  | [] =>
    (match matchAltCore [] with
     | some mr => some mr
     | none => none)
  | c :: rest =>
    match matchAltCore (c :: rest) with
    | some mr => some mr
    | none =>
      if urlChar c then
        match lazyScan rest with
        | some (m, r) => some (c :: m, r)
        | none => none
      else none

/-- The trailing optional query `(?:\?[^\s\]]*)?` (greedy; nothing follows
it in the pattern, so it takes the maximal run when present). -/
def matchQuery (l : List Char) : List Char × List Char :=
  match l with
  | [] => ([], [])
  | c :: rest =>
    if c = '?' then ('?' :: rest.takeWhile urlChar, rest.dropWhile urlChar)
    else ([], c :: rest)

/-- One attempt of `URL_REGEX` anchored at the current position:
`https?://`, the lazy scan, and the optional query.  `https` is tried
before `http` (greedy `s?`); when the input starts with `https://` the
`http` branch can never apply at the same position, and vice versa, so
trying the two literals in order is exactly Python's backtracking. -/
def matchUrlAt (l : List Char) : Option (List Char × List Char) :=
  match dropLit "https://".toList l with
  | some r =>
    (match lazyScan r with
     | some (m, r2) =>
       let q := matchQuery r2
       some ("https://".toList ++ m ++ q.1, q.2)
     | none => none)
  | none =>
    match dropLit "http://".toList l with
    | some r =>
      (match lazyScan r with
       | some (m, r2) =>
         let q := matchQuery r2
         some ("http://".toList ++ m ++ q.1, q.2)
       | none => none)
    | none => none

/-- Leftmost search: try `URL_REGEX` at each start position, left to
right, as `re` does. -/
def findUrlFrom : List Char → Option (List Char × List Char)
  | [] => none
  | c :: rest =>
    match matchUrlAt (c :: rest) with
    | some r => some r
    | none => findUrlFrom rest

/-- Fuelled iteration of the leftmost search, resuming after each match:
the embedding of `URL_REGEX.finditer` (matches are non-empty — every
match starts with `http://` — so `length + 1` fuel always suffices). -/
def urlFindAllAux : Nat → List Char → List (List Char)
  | 0, _ => []
  | Nat.succ n, l =>
    match findUrlFrom l with
    | none => []
    | some (m, rest) => m :: urlFindAllAux n rest

/-- All matches of `URL_REGEX` in a line, in order: `URL_REGEX.finditer(line)`,
taking `m.group(1)` (the outer group is the whole match). -/
def urlFindAll (l : List Char) : List (List Char) :=
  urlFindAllAux (l.length + 1) l

/-- The characters stripped by `u.strip("]'\"")`: `]`, apostrophe, double quote. -/
def stripChars (c : Char) : Bool :=
  c = ']' || c = Char.ofNat 39 || c = Char.ofNat 34

/-- Python `str.strip`: drop characters satisfying `p` from both ends. -/
def pyStrip (p : Char → Bool) (l : List Char) : List Char :=
  ((l.dropWhile p).reverse.dropWhile p).reverse

/-- `sanitize_url(u) = u.strip().strip("]'\"")` from the source. -/
def sanitize_url (u : List Char) : List Char :=
  pyStrip stripChars (pyStrip isPySpace u)

/-- One attempt of `re.search(r'/package/([A-Fa-f0-9]+)\.zip(?:\?|$)', url)`
anchored at the current position, returning the hash group.  As in
`matchPkgTail`, the greedy hex run needs no backtracking. -/
def matchPkgHashAt (l : List Char) : Option (List Char) :=
  match dropLit "/package/".toList l with
  | none => none
  | some r1 =>
    let h := r1.takeWhile isHexChar
    let r2 := r1.dropWhile isHexChar
    if h = [] then none
    else
      match dropLit ".zip".toList r2 with
      | none => none
      | some r3 =>
        match r3 with
        | [] => some h
        | c :: _ => if c = '?' then some h else none

/-- Leftmost `re.search` for the package-hash pattern inside
`friendly_name_from_url`. -/
def searchPkgHash : List Char → Option (List Char)
  | [] => none
  | c :: rest =>
    match matchPkgHashAt (c :: rest) with
    | some h => some h
    | none => searchPkgHash rest

/-- `url.rstrip('/')`. -/
def rstripSlash (l : List Char) : List Char :=
  (l.reverse.dropWhile (fun c => c == '/')).reverse

/-- The last component of `split('/')`: the maximal run of non-`/`
characters at the end of the string. -/
def lastSeg (l : List Char) : List Char :=
  (l.reverse.takeWhile (fun c => !(c == '/'))).reverse

/-- `tail = url.rstrip('/').split('/')[-1] or "update.zip"` from the source
(the `or` replaces an empty final segment by the literal). -/
def urlTail (url : List Char) : List Char :=
  let t := lastSeg (rstripSlash url)
  if t = [] then "update.zip".toList else t

/-- `friendly_name_from_url` from the source: `ota_<hash>.zip` when the
package-hash search hits, otherwise the tail verbatim when it ends in
`.zip`, otherwise `update.zip`. -/
def friendly_name_from_url (url : List Char) : List Char :=
  match searchPkgHash url with
  | some h => "ota_".toList ++ (h ++ ".zip".toList)
  | none =>
    if (".zip".toList).isSuffixOf (urlTail url) then urlTail url
    else "update.zip".toList

/-- The canonical matches produced by one line in `OtaCaptor._parser_thread`:
`[sanitize_url(m.group(1)) for m in URL_REGEX.finditer(line)]`, in order. -/
def urlsOfLine (line : List Char) : List (List Char) :=
  (urlFindAll line).map sanitize_url

/-- The state of one `OtaCaptor` session as seen by `_parser_thread`:
`_seen` (the dedup set), the matches sink (`ota_urls_*.txt` lines, in
append order), the callback invocations (the session is modelled with a
registered `on_new_url` callback, as in oneshot mode), the callback
invocations whose exception was swallowed, and the auto-download calls
`download_with_progress(url, friendly_name_from_url(url))`. -/
structure PState where
  seen : List (List Char)
  sink : List (List Char)
  notifs : List (List Char)
  cbErrors : List (List Char)
  downloads : List (List Char × List Char)
deriving DecidableEq

/-- The parser state at session start: everything empty. -/
def initPState : PState := ⟨[], [], [], [], []⟩

/-- A callback/sink behaviour that never raises. -/
def neverFails : List Char → Bool := fun _ => false

/-- The body of `_parser_thread` for one canonical url, with exceptions
explicit: `if url not in self._seen: self._seen.add(url); outf.write(url);
outf.flush(); ok(...); try: self.on_new_url(url) except: pass;
if self.auto_download: download_with_progress(url, friendly_name_from_url(url))`.
`sinkFails url = true` models `outf.write`/`outf.flush` raising (disk full,
permissions): the source has no handler there, so the exception propagates
(`Except.error`) with the dedup insertion already performed.  A callback
error (`cbFails`) is swallowed by the `try`/`except` around the callback.
Console output (`ok`) is not modelled. -/
def stepUrlE (auto : Bool) (sinkFails cbFails : List Char → Bool) (st : PState)
    (url : List Char) : Except PState PState :=
  if url ∈ st.seen then .ok st
  else
    let st1 : PState := { st with seen := url :: st.seen }
    if sinkFails url then .error st1
    else
      let st2 : PState := { st1 with sink := st1.sink ++ [url] }
      let st3 : PState :=
        { st2 with
          notifs := st2.notifs ++ [url],
          cbErrors := if cbFails url then st2.cbErrors ++ [url] else st2.cbErrors }
      let st4 : PState :=
        if auto then
          { st3 with downloads := st3.downloads ++ [(url, friendly_name_from_url url)] }
        else st3
      .ok st4

/-- The per-url body when the sink never fails (it then never raises). -/
def stepUrl (auto : Bool) (cbFails : List Char → Bool) (st : PState)
    (url : List Char) : PState :=
  match stepUrlE auto neverFails cbFails st url with
  | .ok s => s
  | .error s => s

/-- The `for m in URL_REGEX.finditer(line)` loop over the canonical urls
of one line, with sink exceptions propagating out of the loop. -/
def processUrlsE (auto : Bool) (sinkFails cbFails : List Char → Bool) :
    PState → List (List Char) → Except PState PState
  | st, [] => .ok st
  | st, u :: us =>
    match stepUrlE auto sinkFails cbFails st u with
    | .error s => .error s
    | .ok s => processUrlsE auto sinkFails cbFails s us

/-- One iteration of the `_parser_thread` loop on one dequeued line, sink
exceptions propagating. -/
def processLineE (auto : Bool) (sinkFails cbFails : List Char → Bool)
    (st : PState) (line : List Char) : Except PState PState :=
  processUrlsE auto sinkFails cbFails st (urlsOfLine line)

/-- The `_parser_thread` loop over a sequence of dequeued lines, sink
exceptions propagating (an unhandled exception ends the loop: later lines
are not processed). -/
def runLoopE (auto : Bool) (sinkFails cbFails : List Char → Bool) :
    PState → List (List Char) → Except PState PState
  | st, [] => .ok st
  | st, l :: ls =>
    match processLineE auto sinkFails cbFails st l with
    | .error s => .error s
    | .ok s => runLoopE auto sinkFails cbFails s ls

/-- The per-line body with a never-failing sink. -/
def processLine (auto : Bool) (cbFails : List Char → Bool)
    (st : PState) (line : List Char) : PState :=
  (urlsOfLine line).foldl (stepUrl auto cbFails) st

/-- The parser loop, from the empty session state, over the sequence of
lines the parser dequeues (a line may occur several times in the sequence:
the shared queue can hand a re-enqueued line back to the parser). -/
def runLoop (auto : Bool) (cbFails : List Char → Bool)
    (ls : List (List Char)) : PState :=
  ls.foldl (processLine auto cbFails) initPState

/-- The `OneShotController` of the source: `first_url` and the
`threading.Event` `hit_event`, modelled by its set/unset state. -/
structure OneShotController where
  first_url : Option (List Char)
  hit : Bool
deriving DecidableEq

/-- `OneShotController.__init__`: no url, event unset. -/
def oneShotInit : OneShotController := ⟨none, false⟩

/-- `OneShotController.on_new_url`: sanitize, and only when the event is
not yet set, record the url and set the event. -/
def on_new_url (c : OneShotController) (url : List Char) : OneShotController :=
  if c.hit then c
  else { first_url := some (sanitize_url url), hit := true }

/-- The value the oneshot workflow reads after `hit_event.wait` returns:
the recorded `first_url` when the event is set, `none` (TimedOut) when the
wait ended without the event being set.  Real-time blocking is not part of
this state-level model. -/
def waitForFirst (c : OneShotController) : Option (List Char) :=
  if c.hit then c.first_url else none

/-- The control state of `OtaCaptor` relevant to `stop()`: the `_stop`
event, whether `self.proc` exists with `poll() is None`, and whether
`terminate()` has been requested on it (delivering SIGTERM again to a
process that already received it has no further state-level effect, so
`terminate` is modelled as setting this flag). -/
structure CapControl where
  stopSet : Bool
  procRunning : Bool
  termRequested : Bool
deriving DecidableEq

/-- `OtaCaptor.stop`: `if not self._stop.is_set(): self._stop.set()`, then
`if self.proc and self.proc.poll() is None: self.proc.terminate()`. -/
def OtaCaptor.stop (s : CapControl) : CapControl :=
  let s1 := if s.stopSet then s else { s with stopSet := true }
  if s1.procRunning then { s1 with termRequested := true } else s1

/-- Environment step: the external logcat process exits on its own
(`poll()` stops returning `None`). -/
def procExit (s : CapControl) : CapControl :=
  { s with procRunning := false }

/-- The shared-queue fan-out of the source: `start()` pushes each decoded
line into `self._queue` in arrival order (`pending` holds the lines not
yet pushed), `_writer_thread` pops a line and appends it to the raw log,
and `_parser_thread` pops a line, pushes it back (`self._queue.put(line)
# also let writer handle it`) and parses it.  The stop flag is not
modelled: the schedules below never need it (both loops simply end once
it is set). -/
structure QState where
  pending : List (List Char)
  queue : List (List Char)
  rawLog : List (List Char)
  pst : PState
deriving DecidableEq

/-- The three kinds of atomic events of the fan-out. -/
inductive QAct where
  | produce
  | writeStep
  | parseStep
deriving DecidableEq

/-- One atomic event: the main thread enqueues the next arrived line, the
writer dequeues-and-writes, or the parser dequeues, re-enqueues and
parses (oneshot configuration: `auto_download=False`, callback registered
and not raising). -/
def qstep (s : QState) : QAct → QState
  | .produce =>
    match s.pending with
    | [] => s
    | l :: rest => { s with pending := rest, queue := s.queue ++ [l] }
  | .writeStep =>
    match s.queue with
    | [] => s
    | l :: q => { s with queue := q, rawLog := s.rawLog ++ [l] }
  | .parseStep =>
    match s.queue with
    | [] => s
    | l :: q =>
      { s with queue := q ++ [l], pst := processLine false neverFails s.pst l }

/-- A session just started on a given arrival sequence. -/
def qinit (input : List (List Char)) : QState :=
  ⟨input, [], [], initPState⟩

/-- Run the fan-out under a given thread schedule. -/
def qexec (input : List (List Char)) (sched : List QAct) : QState :=
  sched.foldl qstep (qinit input)

/-- A list is a Boolean prefix of itself followed by anything. -/
theorem isPrefixOf_self_append (p q : List Char) : p.isPrefixOf (p ++ q) = true := by
  induction p with
  | nil => simp [List.isPrefixOf]
  | cons a as ih => simp [List.isPrefixOf, ih]

/-- A list is a Boolean suffix of anything followed by itself. -/
theorem isSuffixOf_append_self (l s : List Char) : s.isSuffixOf (l ++ s) = true := by
  show (s.reverse.isPrefixOf (l ++ s).reverse) = true
  rw [List.reverse_append]
  exact isPrefixOf_self_append s.reverse l.reverse

/-- Claim C10: for every input URL string, `friendly_name_from_url` returns
a name ending in `.zip`: `ota_<hash>.zip` on a package-hash hit, the final
segment verbatim only when it already ends in `.zip`, and `update.zip` in
every other case. -/
theorem friendly_name_zip_suffix (url : List Char) :
    (".zip".toList).isSuffixOf (friendly_name_from_url url) = true := by
  unfold friendly_name_from_url
  cases hs : searchPkgHash url with
  | some h =>
    show (".zip".toList).isSuffixOf ("ota_".toList ++ (h ++ ".zip".toList)) = true
    rw [← List.append_assoc]
    exact isSuffixOf_append_self _ _
  | none =>
    show (".zip".toList).isSuffixOf
        (if (".zip".toList).isSuffixOf (urlTail url) = true then urlTail url
         else "update.zip".toList) = true
    by_cases hz : (".zip".toList).isSuffixOf (urlTail url) = true
    · rw [if_pos hz]; exact hz
    · rw [if_neg hz]; decide

/-- Claim C3, counterexample: on the bare URL
`https://example.com/payload.bin` (no hash segment, final path segment
`payload.bin`) the code returns `update.zip`, not `payload.bin` as the
claim states. -/
theorem payload_bin_cex :
    friendly_name_from_url ("https://example.com/payload.bin".toList)
        = "update.zip".toList ∧
    friendly_name_from_url ("https://example.com/payload.bin".toList)
        ≠ "payload.bin".toList := by
  exact ⟨by decide, by decide⟩

/-- Claim C3, amended: for every input URL with no package-hash segment
whose final path segment is `payload.bin`, `friendly_name_from_url`
returns `update.zip` (the final segment is used verbatim only when it
ends in `.zip`). -/
theorem payload_bin_fallback (url : List Char)
    (h1 : searchPkgHash url = none)
    (h2 : urlTail url = "payload.bin".toList) :
    friendly_name_from_url url = "update.zip".toList := by
  unfold friendly_name_from_url
  rw [h1, h2]
  decide

/-- Witness for the amended claim C3 at the concrete URL
`https://example.com/payload.bin`. -/
theorem payload_bin_fallback_witness :
    searchPkgHash ("https://example.com/payload.bin".toList) = none ∧
    urlTail ("https://example.com/payload.bin".toList) = "payload.bin".toList ∧
    friendly_name_from_url ("https://example.com/payload.bin".toList)
        = "update.zip".toList :=
  ⟨by decide, by decide, payload_bin_fallback _ (by decide) (by decide)⟩

/-- The example log line of the spec: the package-hash URL with a query
string, surrounded by other text and followed by whitespace. -/
def exampleLine : List Char :=
  "log https://android.googleapis.com/packages/ota-api/package/DEADBEEF01.zip?sig=abc end".toList

/-- The URL the matcher is expected to find in `exampleLine`. -/
def exampleUrl : List Char :=
  "https://android.googleapis.com/packages/ota-api/package/DEADBEEF01.zip?sig=abc".toList

/-- Claim C5: on the example line the matcher finds exactly the
package-hash URL with its query string retained, canonicalization leaves
it unchanged, and `friendly_name_from_url` derives `ota_DEADBEEF01.zip`. -/
theorem example_line_end_to_end :
    urlFindAll exampleLine = [exampleUrl] ∧
    sanitize_url exampleUrl = exampleUrl ∧
    urlsOfLine exampleLine = [exampleUrl] ∧
    friendly_name_from_url exampleUrl = "ota_DEADBEEF01.zip".toList := by
  exact ⟨by decide, by decide, by decide, by decide⟩

/-- Claim C9: `stop()` is idempotent — a second call (also with the
external process exiting in between) leaves the control state exactly as
one call does, and one call already sets the stop flag, so the Stopped
transition happens at most once. -/
theorem stop_idempotent (s : CapControl) :
    OtaCaptor.stop (OtaCaptor.stop s) = OtaCaptor.stop s ∧
    OtaCaptor.stop (procExit (OtaCaptor.stop s)) = procExit (OtaCaptor.stop s) ∧
    (OtaCaptor.stop s).stopSet = true := by
  obtain ⟨a, b, c⟩ := s
  cases a <;> cases b <;> cases c <;> exact ⟨rfl, rfl, rfl⟩

/-- A released latch ignores every further notification. -/
theorem foldl_on_new_url_hit (us : List (List Char)) :
    ∀ c : OneShotController, c.hit = true → us.foldl on_new_url c = c := by
  induction us with
  | nil => intro c _; rfl
  | cons x xs ih =>
    intro c h
    show xs.foldl on_new_url (on_new_url c x) = c
    rw [show on_new_url c x = c from by simp [on_new_url, h]]
    exact ih c h

/-- Claim C6: the One-Shot latch is write-once — after the first
notification the recorded url is the sanitized first url and the latch is
released, any sequence of later notifications leaves the state unchanged,
a single further notification is a no-op, and a wait on the released
latch returns the recorded url. -/
theorem oneshot_latch_write_once (u v : List Char) (us : List (List Char)) :
    us.foldl on_new_url (on_new_url oneShotInit u)
        = ⟨some (sanitize_url u), true⟩ ∧
    on_new_url ⟨some (sanitize_url u), true⟩ v = ⟨some (sanitize_url u), true⟩ ∧
    waitForFirst ⟨some (sanitize_url u), true⟩ = some (sanitize_url u) := by
  refine ⟨?_, rfl, rfl⟩
  rw [show on_new_url oneShotInit u = ⟨some (sanitize_url u), true⟩ from rfl]
  exact foldl_on_new_url_hit us _ rfl

/-- Claim C1, execution of the code at the failing schedule: lines `a`
then `b` are fed in arrival order, the parser dequeues `a` and re-enqueues
it behind `b`, and the writer then writes `b` before `a`.  All lines have
been drained (pending and queue empty), yet the raw log reads `b, a`. -/
theorem raw_sink_reorder_cex :
    (qexec ["a".toList, "b".toList]
        [.produce, .produce, .parseStep, .writeStep, .writeStep]).rawLog
      = ["b".toList, "a".toList] ∧
    (qexec ["a".toList, "b".toList]
        [.produce, .produce, .parseStep, .writeStep, .writeStep]).queue = [] ∧
    (qexec ["a".toList, "b".toList]
        [.produce, .produce, .parseStep, .writeStep, .writeStep]).pending = [] ∧
    (["b".toList, "a".toList] : List (List Char)) ≠ ["a".toList, "b".toList] := by
  exact ⟨by decide, by decide, by decide, by decide⟩

/-- A sink behaviour where every append raises (e.g. disk full). -/
def alwaysFails : List Char → Bool := fun _ => true

/-- The line and url used in the sink-failure counterexample. -/
def failLine : List Char := "get https://h/payload.zip ok".toList

/-- The canonical match of `failLine`. -/
def failUrl : List Char := "https://h/payload.zip".toList

/-- Claim C4, counterexample: with a matches-sink whose append raises, the
line does produce a new canonical match, but the run ends in the
propagated exception with the match recorded in the dedup set and the
callback never invoked (`notifs = []`) — the match is lost from the
callback path and no later line would be processed. -/
theorem sink_failure_cex :
    urlsOfLine failLine = [failUrl] ∧
    runLoopE false alwaysFails neverFails initPState [failLine]
        = .error ⟨[failUrl], [], [], [], []⟩ := by
  exact ⟨by decide, rfl⟩

/-- Claim C4, amended: when appending a new canonical match to the matches
sink fails, the exception propagates out of the parser loop — the match is
inserted into the dedup set (the insertion precedes the write) but no sink
line is appended, the callback is not invoked for it, no auto-download
triggers, and the remaining matches of the loop are not processed. -/
theorem sink_failure_halts (auto : Bool) (sf cb : List Char → Bool) (st : PState)
    (url : List Char) (us : List (List Char))
    (h1 : url ∉ st.seen) (h2 : sf url = true) :
    processUrlsE auto sf cb st (url :: us) = .error { st with seen := url :: st.seen } := by
  simp [processUrlsE, stepUrlE, h1, h2]

/-- Witness for the amended claim C4 at the concrete url of `failLine`. -/
theorem sink_failure_halts_witness :
    (failUrl ∉ initPState.seen) ∧ alwaysFails failUrl = true ∧
    processUrlsE false alwaysFails neverFails initPState [failUrl]
        = .error ⟨[failUrl], [], [], [], []⟩ :=
  ⟨by decide, rfl,
    sink_failure_halts false alwaysFails neverFails initPState failUrl [] (by decide) rfl⟩

/-- On an already-seen url the parser body is a no-op (the dedup check
reports already-present and performs no mutation). -/
theorem stepUrl_mem (auto : Bool) (cb : List Char → Bool) (st : PState)
    (url : List Char) (h : url ∈ st.seen) : stepUrl auto cb st url = st := by
  simp [stepUrl, stepUrlE, h]

/-- On a new url the parser body inserts it into the dedup set, appends it
to the matches sink, invokes the callback, and triggers the auto-download
when enabled. -/
theorem stepUrl_new (auto : Bool) (cb : List Char → Bool) (st : PState)
    (url : List Char) (h : url ∉ st.seen) :
    stepUrl auto cb st url =
      ⟨url :: st.seen,
       st.sink ++ [url],
       st.notifs ++ [url],
       if cb url then st.cbErrors ++ [url] else st.cbErrors,
       if auto then st.downloads ++ [(url, friendly_name_from_url url)]
       else st.downloads⟩ := by
  cases auto <;> cases hcb : cb url <;>
    simp [stepUrl, stepUrlE, h, neverFails, hcb]

/-- Membership in the dedup set after one parser-body step. -/
theorem mem_seen_stepUrl (auto : Bool) (cb : List Char → Bool) (st : PState)
    (u url : List Char) :
    url ∈ (stepUrl auto cb st u).seen ↔ url = u ∨ url ∈ st.seen := by
  by_cases hm : u ∈ st.seen
  · rw [stepUrl_mem _ _ _ _ hm]
    constructor
    · exact fun h => Or.inr h
    · rintro (rfl | h)
      · exact hm
      · exact h
  · rw [stepUrl_new _ _ _ _ hm]
    exact List.mem_cons

/-- Membership in the dedup set after the per-line url loop. -/
theorem mem_seen_processUrls (auto : Bool) (cb : List Char → Bool)
    (us : List (List Char)) :
    ∀ (st : PState) (url : List Char),
      url ∈ (us.foldl (stepUrl auto cb) st).seen ↔ url ∈ us ∨ url ∈ st.seen := by
  induction us with
  | nil => intro st url; simp
  | cons u us ih =>
    intro st url
    show url ∈ (us.foldl (stepUrl auto cb) (stepUrl auto cb st u)).seen ↔ _
    rw [ih, mem_seen_stepUrl]
    simp [List.mem_cons]
    tauto

/-- Membership in the dedup set after the whole parser loop: exactly the
canonical matches of the processed lines (plus whatever was already
there). -/
theorem mem_seen_lines (auto : Bool) (cb : List Char → Bool)
    (ls : List (List Char)) :
    ∀ (st : PState) (url : List Char),
      url ∈ (ls.foldl (processLine auto cb) st).seen
        ↔ url ∈ ls.flatMap urlsOfLine ∨ url ∈ st.seen := by
  induction ls with
  | nil => intro st url; simp
  | cons l ls ih =>
    intro st url
    show url ∈ (ls.foldl (processLine auto cb) (processLine auto cb st l)).seen ↔ _
    rw [ih]
    show _ ∨ url ∈ ((urlsOfLine l).foldl (stepUrl auto cb) st).seen ↔ _
    rw [mem_seen_processUrls, List.flatMap_cons, List.mem_append]
    tauto

/-- Number of auto-download triggers for a given url: how often it occurs
as the first component of a recorded `download_with_progress(url, name)`
call. -/
def dlCount (url : List Char) (l : List (List Char × List Char)) : Nat :=
  (l.map Prod.fst).count url

/-- The dedup invariant of the parser state, for one url: the matches
sink, the callback invocations and the auto-download triggers each hold
the url exactly once if it is in the dedup set and never otherwise. -/
def DedupInv (auto : Bool) (url : List Char) (st : PState) : Prop :=
  st.sink.count url = (if url ∈ st.seen then 1 else 0) ∧
  st.notifs.count url = (if url ∈ st.seen then 1 else 0) ∧
  dlCount url st.downloads = (if url ∈ st.seen then (if auto then 1 else 0) else 0)

/-- The dedup invariant is preserved by one parser-body step. -/
theorem dedupInv_stepUrl (auto : Bool) (cb : List Char → Bool) (st : PState)
    (u url : List Char) (h : DedupInv auto url st) :
    DedupInv auto url (stepUrl auto cb st u) := by
  obtain ⟨h1, h2, h3⟩ := h
  by_cases hm : u ∈ st.seen
  · rw [stepUrl_mem _ _ _ _ hm]
    exact ⟨h1, h2, h3⟩
  · rw [stepUrl_new _ _ _ _ hm]
    by_cases he : url = u
    · subst he
      have hn : url ∉ st.seen := hm
      rw [if_neg hn] at h1 h2 h3
      refine ⟨?_, ?_, ?_⟩
      · simp [List.count_append, List.count_cons, h1]
      · simp [List.count_append, List.count_cons, h2]
      · cases auto <;>
          simp [dlCount, List.map_append, List.count_append, List.count_cons, h3] at h3 ⊢ <;>
          simp [dlCount, h3]
    · have hmem : (url ∈ u :: st.seen) ↔ (url ∈ st.seen) := by
        simp [List.mem_cons, he]
      refine ⟨?_, ?_, ?_⟩
      · simp [List.count_append, List.count_cons, Ne.symm he, hmem, h1]
      · simp [List.count_append, List.count_cons, Ne.symm he, hmem, h2]
      · cases auto <;>
          simp [dlCount, List.map_append, List.count_append, List.count_cons,
            Ne.symm he, hmem] <;>
          simpa [dlCount, hmem] using h3

/-- The dedup invariant is preserved by the per-line url loop. -/
theorem dedupInv_processUrls (auto : Bool) (cb : List Char → Bool)
    (us : List (List Char)) :
    ∀ (st : PState) (url : List Char), DedupInv auto url st →
      DedupInv auto url (us.foldl (stepUrl auto cb) st) := by
  induction us with
  | nil => intro st url h; exact h
  | cons u us ih =>
    intro st url h
    exact ih (stepUrl auto cb st u) url (dedupInv_stepUrl auto cb st u url h)

/-- The dedup invariant is preserved by the whole parser loop. -/
theorem dedupInv_lines (auto : Bool) (cb : List Char → Bool)
    (ls : List (List Char)) :
    ∀ (st : PState) (url : List Char), DedupInv auto url st →
      DedupInv auto url (ls.foldl (processLine auto cb) st) := by
  induction ls with
  | nil => intro st url h; exact h
  | cons l ls ih =>
    intro st url h
    exact ih (processLine auto cb st l) url
      (dedupInv_processUrls auto cb (urlsOfLine l) st url h)

/-- Claim C2: for every canonical match produced by the processed lines
(in particular one produced twice or more), the session emits exactly one
new-match event — one matches-sink line, one callback invocation, and one
auto-download trigger when auto-download is enabled; every later check of
the same canonical match finds it in the dedup set and emits nothing. -/
theorem dedup_single_emit (auto : Bool) (cb : List Char → Bool)
    (ls : List (List Char)) (url : List Char)
    (h : url ∈ ls.flatMap urlsOfLine) :
    (runLoop auto cb ls).sink.count url = 1 ∧
    (runLoop auto cb ls).notifs.count url = 1 ∧
    dlCount url (runLoop auto cb ls).downloads = (if auto then 1 else 0) := by
  have hmem : url ∈ (runLoop auto cb ls).seen := by
    show url ∈ (ls.foldl (processLine auto cb) initPState).seen
    rw [mem_seen_lines]
    exact Or.inl h
  have hinv : DedupInv auto url (runLoop auto cb ls) := by
    refine dedupInv_lines auto cb ls initPState url ?_
    refine ⟨?_, ?_, ?_⟩ <;> simp [initPState, dlCount]
  obtain ⟨h1, h2, h3⟩ := hinv
  rw [if_pos hmem] at h1 h2 h3
  exact ⟨h1, h2, h3⟩

/-- The two-line input of the C2 witness: the same package-hash URL three
times across two lines. -/
def dupLineA : List Char :=
  "x https://a/packages/ota-api/package/AB.zip y https://a/packages/ota-api/package/AB.zip".toList

/-- Second line of the C2 witness input. -/
def dupLineB : List Char :=
  "w https://a/packages/ota-api/package/AB.zip".toList

/-- The canonical match produced (three times) by the C2 witness input. -/
def dupUrl : List Char := "https://a/packages/ota-api/package/AB.zip".toList

/-- Witness for claim C2 at a concrete input that produces the same
canonical match three times: one sink line, one callback invocation, one
auto-download trigger. -/
theorem dedup_single_emit_witness :
    dupUrl ∈ ([dupLineA, dupLineB].flatMap urlsOfLine) ∧
    ((runLoop true neverFails [dupLineA, dupLineB]).sink.count dupUrl = 1 ∧
     (runLoop true neverFails [dupLineA, dupLineB]).notifs.count dupUrl = 1 ∧
     dlCount dupUrl (runLoop true neverFails [dupLineA, dupLineB]).downloads
       = (if true then 1 else 0)) :=
  ⟨by decide, dedup_single_emit true neverFails [dupLineA, dupLineB] dupUrl (by decide)⟩

/-- One parser-body step: the dedup set, matches sink, callback
invocations and auto-download triggers do not depend on whether the
callback raises (only the swallowed-error log does). -/
theorem stepUrl_obs (auto : Bool) (cb cb' : List Char → Bool) (s t : PState)
    (u : List Char)
    (hseen : s.seen = t.seen) (hsink : s.sink = t.sink)
    (hnot : s.notifs = t.notifs) (hdl : s.downloads = t.downloads) :
    (stepUrl auto cb s u).seen = (stepUrl auto cb' t u).seen ∧
    (stepUrl auto cb s u).sink = (stepUrl auto cb' t u).sink ∧
    (stepUrl auto cb s u).notifs = (stepUrl auto cb' t u).notifs ∧
    (stepUrl auto cb s u).downloads = (stepUrl auto cb' t u).downloads := by
  by_cases hm : u ∈ s.seen
  · have hm' : u ∈ t.seen := hseen ▸ hm
    rw [stepUrl_mem _ _ _ _ hm, stepUrl_mem _ _ _ _ hm']
    exact ⟨hseen, hsink, hnot, hdl⟩
  · have hm' : u ∉ t.seen := by rw [← hseen]; exact hm
    rw [stepUrl_new _ _ _ _ hm, stepUrl_new _ _ _ _ hm']
    exact ⟨by rw [hseen], by rw [hsink], by rw [hnot], by rw [hdl]⟩

/-- The per-line url loop preserves independence from callback errors. -/
theorem processUrls_obs (auto : Bool) (cb cb' : List Char → Bool)
    (us : List (List Char)) :
    ∀ s t : PState,
      s.seen = t.seen → s.sink = t.sink → s.notifs = t.notifs →
      s.downloads = t.downloads →
      (us.foldl (stepUrl auto cb) s).seen = (us.foldl (stepUrl auto cb') t).seen ∧
      (us.foldl (stepUrl auto cb) s).sink = (us.foldl (stepUrl auto cb') t).sink ∧
      (us.foldl (stepUrl auto cb) s).notifs = (us.foldl (stepUrl auto cb') t).notifs ∧
      (us.foldl (stepUrl auto cb) s).downloads
        = (us.foldl (stepUrl auto cb') t).downloads := by
  induction us with
  | nil => intro s t h1 h2 h3 h4; exact ⟨h1, h2, h3, h4⟩
  | cons u us ih =>
    intro s t h1 h2 h3 h4
    obtain ⟨g1, g2, g3, g4⟩ := stepUrl_obs auto cb cb' s t u h1 h2 h3 h4
    exact ih (stepUrl auto cb s u) (stepUrl auto cb' t u) g1 g2 g3 g4

/-- The whole parser loop preserves independence from callback errors. -/
theorem lines_obs (auto : Bool) (cb cb' : List Char → Bool)
    (ls : List (List Char)) :
    ∀ s t : PState,
      s.seen = t.seen → s.sink = t.sink → s.notifs = t.notifs →
      s.downloads = t.downloads →
      (ls.foldl (processLine auto cb) s).seen
        = (ls.foldl (processLine auto cb') t).seen ∧
      (ls.foldl (processLine auto cb) s).sink
        = (ls.foldl (processLine auto cb') t).sink ∧
      (ls.foldl (processLine auto cb) s).notifs
        = (ls.foldl (processLine auto cb') t).notifs ∧
      (ls.foldl (processLine auto cb) s).downloads
        = (ls.foldl (processLine auto cb') t).downloads := by
  induction ls with
  | nil => intro s t h1 h2 h3 h4; exact ⟨h1, h2, h3, h4⟩
  | cons l ls ih =>
    intro s t h1 h2 h3 h4
    obtain ⟨g1, g2, g3, g4⟩ :=
      processUrls_obs auto cb cb' (urlsOfLine l) s t h1 h2 h3 h4
    exact ih (processLine auto cb s l) (processLine auto cb' t l) g1 g2 g3 g4

/-- Claim C7: a raising new-match callback is swallowed by the
`try`/`except` around the invocation — for every callback failure
behaviour, the dedup set, the matches sink, the sequence of callback
invocations and the auto-download triggers of the whole run are exactly
those of a run whose callback never raises; in particular every
subsequent line and match is still processed identically. -/
theorem callback_failure_harmless (auto : Bool) (cb : List Char → Bool)
    (ls : List (List Char)) :
    (runLoop auto cb ls).seen = (runLoop auto neverFails ls).seen ∧
    (runLoop auto cb ls).sink = (runLoop auto neverFails ls).sink ∧
    (runLoop auto cb ls).notifs = (runLoop auto neverFails ls).notifs ∧
    (runLoop auto cb ls).downloads = (runLoop auto neverFails ls).downloads :=
  lines_obs auto cb neverFails ls initPState initPState rfl rfl rfl rfl
